import Mathlib

/-!
Shallow embedding of `simclr_lin.py` (SimCLR-CIFAR10 linear evaluation and
fine-tuning script), together with theorems about its components.

Python floats are modelled as exact rationals (`ℚ`), except the cosine
learning-rate schedule `get_lr`, which calls `np.cos` and is therefore
modelled over the reals (`ℝ`).  Integer class labels are `ℕ`.
-/

namespace SimclrLin

/-! ### AverageMeter (simclr_lin.py, lines 25-41) -/

/-- State of an `AverageMeter`: `name` is stored at construction, `val`,
`avg`, `sum` are scalars, `count` accumulates the integer weights `n`. -/
structure AverageMeter where
  name : String
  val : ℚ
  avg : ℚ
  sum : ℚ
  count : ℕ
  deriving DecidableEq

/-- `reset()`: clears `val`, `avg`, `sum`, `count` to zero (lines 31-35). -/
def AverageMeter.reset (m : AverageMeter) : AverageMeter :=
  { m with val := 0, avg := 0, sum := 0, count := 0 }

/-- A fresh meter, as built by `AverageMeter.__init__(name)`, which calls
`reset` (lines 27-29). -/
def AverageMeter.mk0 (name : String) : AverageMeter :=
  AverageMeter.reset { name := name, val := 0, avg := 0, sum := 0, count := 0 }

/-- `update(val, n=1)` (lines 37-41): records the current value, adds
`val * n` to the sum, adds `n` to the count, then recomputes
`avg = sum / count` from the updated fields. -/
def AverageMeter.update (m : AverageMeter) (v : ℚ) (n : ℕ) : AverageMeter :=
  { m with
    val := v
    sum := m.sum + v * n
    count := m.count + n
    avg := (m.sum + v * n) / ((m.count : ℚ) + n) }

/-- Applying a sequence of `update (val, n)` calls to a meter. -/
def applyUpdates (m : AverageMeter) (us : List (ℚ × ℕ)) : AverageMeter :=
  us.foldl (fun s u => s.update u.1 u.2) m

/-! ### get_lr (lines 93-95) -/

/-- `get_lr(step, total_steps, lr_max, lr_min)`: cosine annealing schedule;
`np.cos` and `np.pi` are modelled by `Real.cos` and `Real.pi`. -/
noncomputable def get_lr (step total_steps lr_max lr_min : ℝ) : ℝ :=
  lr_min + (lr_max - lr_min) * 0.5 * (1 + Real.cos (step / total_steps * Real.pi))

/-! ### get_subset (lines 97-110)

The Python code iterates `enumerate(dataset)` once, keeping a
`defaultdict(list)` named `m` from class label to the list of selected
indices.  Python dicts preserve insertion order, so `m` is modelled as an
association list in insertion order. -/

/-- CIFAR10 integer class labels. -/
abbrev Label : Type := ℕ

/-- The buckets dictionary `m : defaultdict(list)`, in insertion order. -/
abbrev Buckets : Type := List (Label × List ℕ)

/-- Lookup of `m[y]`; `none` models `y not in m.keys()`. -/
def lookupBucket : Buckets → Label → Option (List ℕ)
  | [], _ => none
  | (k, b) :: rest, y => if k = y then some b else lookupBucket rest y

/-- `m[y].append(i)`: appends `i` to the bucket of `y`, creating the bucket
at the end of the dict (insertion order) when `y` is a fresh key. -/
def appendToBucket : Buckets → Label → ℕ → Buckets
  | [], y, i => [(y, [i])]
  | (k, b) :: rest, y, i =>
    if k = y then (k, b ++ [i]) :: rest else (k, b) :: appendToBucket rest y i

/-- One iteration of the loop body of `get_subset` (lines 101-106) on the
item with label `y` at index `i`: a first-seen label is appended
unconditionally; a known label is appended only if its bucket length is
still below `per_class_values`. -/
def subsetStep (cap : ℚ) (m : Buckets) (y : Label) (i : ℕ) : Buckets :=
  match lookupBucket m y with
  | some b => if (b.length : ℚ) < cap then appendToBucket m y i else m
  | none => appendToBucket m y i

/-- The full loop `for i, (x, y) in enumerate(dataset)` of `get_subset`,
threading the buckets dictionary; `i` is the enumeration counter. -/
def subsetLoop {α : Type} (cap : ℚ) : Buckets → List (α × Label) → ℕ → Buckets
  | m, [], _ => m
  | m, (_, y) :: rest, i => subsetLoop cap (subsetStep cap m y i) rest (i + 1)

/-- `get_subset(dataset, pct)` (lines 97-110): `per_class_values =
(len(dataset) * pct) / 10`, run the loop, then extend `indices` with the
bucket contents in dict (insertion) order. -/
def get_subset {α : Type} (dataset : List (α × Label)) (pct : ℚ) : List ℕ :=
  ((subsetLoop (((dataset.length : ℚ) * pct) / 10) [] dataset 0).map Prod.snd).flatten

/-- The label stored at index `i` of the dataset, if any. -/
def labelOf {α : Type} (ds : List (α × Label)) (i : ℕ) : Option Label :=
  (ds.get? i).map Prod.snd

/-- Enumeration indices (starting at `i`) of the items of `ds` whose label
is `y`, in dataset order. -/
def occFrom {α : Type} (y : Label) : List (α × Label) → ℕ → List ℕ
  | [], _ => []
  | (_, y') :: rest, i =>
    if y' = y then i :: occFrom y rest (i + 1) else occFrom y rest (i + 1)

/-- Greedy admission of the later occurrences of a label into a bucket that
already holds `len` entries: each occurrence is admitted exactly when the
current bucket length is below the cap. -/
def admitRest (cap : ℚ) : ℕ → List ℕ → List ℕ
  | _, [] => []
  | len, i :: rest =>
    if (len : ℚ) < cap then i :: admitRest cap (len + 1) rest
    else admitRest cap len rest

/-- Per-label bucket described by the spec: the first occurrence of the
label is always admitted, regardless of the cap; later occurrences are
admitted only while the bucket holds fewer than `cap` entries. -/
def greedyAdmit (cap : ℚ) : List ℕ → List ℕ
  | [] => []
  | i :: rest => i :: admitRest cap 1 rest

/-- Labels of `ys` not in `seen`, in first-encountered order. -/
def newLabels : List Label → List Label → List Label
  | _, [] => []
  | seen, y :: rest =>
    if y ∈ seen then newLabels seen rest else y :: newLabels (seen ++ [y]) rest

/-- Spec-level description of `get_subset`, following the specification's
words (§4.2): per class label, in the order labels are first encountered,
the bucket holds the first occurrence unconditionally and the later
occurrences greedily while below the cap `(len(dataset) * pct) / 10`; the
result concatenates the buckets in that label order. -/
def get_subset_spec {α : Type} (dataset : List (α × Label)) (pct : ℚ) : List ℕ :=
  ((newLabels [] (dataset.map Prod.snd)).map
    (fun y => greedyAdmit (((dataset.length : ℚ) * pct) / 10) (occFrom y dataset 0))).flatten

/-- First index of the dataset carrying label `y` (0 as a default for
labels that do not occur). -/
def firstOccIdx {α : Type} (ds : List (α × Label)) (y : Label) : ℕ :=
  (occFrom y ds 0).headD 0

/-- How processing a suffix `ds` of the dataset (from counter `i` on)
extends one already-existing bucket: its later occurrences of the bucket's
label are admitted greedily below the cap, starting from the bucket's
current length. -/
def extendEntry {α : Type} (cap : ℚ) (ds : List (α × Label)) (i : ℕ)
    (kb : Label × List ℕ) : Label × List ℕ :=
  (kb.1, kb.2 ++ admitRest cap kb.2.length (occFrom kb.1 ds i))

/-! ### run_epoch (lines 57-90)

The model, the forward pass and the cross-entropy loss live in the external
ML framework; they are abstracted as parameters.  `forward` produces the
per-sample class logits, `lossFn` stands for `F.cross_entropy` on a batch,
and `optStep` (when present, i.e. in training mode) stands for
`optimizer.zero_grad(); loss.backward(); optimizer.step()` followed by the
`scheduler.step()`, i.e. one in-place parameter mutation.  The accuracy
computation `(logits.argmax(dim=1) == y).float().mean()` is modelled
exactly. -/

/-- A minibatch `(x, y)`: inputs together with their labels. -/
structure Batch (ι : Type) where
  xs : List ι
  ys : List Label

/-- `x.size(0)`: the batch size, used as the meters' update weight. -/
def Batch.size {ι : Type} (b : Batch ι) : ℕ := b.xs.length

/-- Helper for `argmaxIdx`: fold over the remaining logits, keeping the
index of the first maximal entry seen so far. -/
def argmaxAux : List ℚ → ℕ → ℕ → ℚ → ℕ
  | [], _, best, _ => best
  | v :: rest, i, best, bv =>
    if bv < v then argmaxAux rest (i + 1) i v else argmaxAux rest (i + 1) best bv

/-- `logits.argmax(dim=1)` for a single sample: index of the first maximal
logit (0 on an empty logit vector). -/
def argmaxIdx : List ℚ → ℕ
  | [] => 0
  | v :: rest => argmaxAux rest 1 0 v

/-- Batch accuracy `(logits.argmax(dim=1) == y).float().mean()` (line 80):
fraction of samples whose predicted class index equals the label. -/
def batchAcc {M ι : Type} (forward : M → ι → List ℚ) (m : M) (b : Batch ι) : ℚ :=
  (((b.xs.map (fun x => argmaxIdx (forward m x))).zip b.ys).countP
      (fun p => p.1 == p.2) : ℚ) / (b.size : ℚ)

/-- In training mode (`optStep = some f`) the optimizer mutates the model;
in evaluation mode (`optStep = none`) the model is left unchanged. -/
def applyOpt {M ι : Type} (optStep : Option (M → Batch ι → M)) (m : M) (b : Batch ι) : M :=
  match optStep with
  | some f => f m b
  | none => m

/-- One iteration of the loop body of `run_epoch` (lines 67-88): compute the
loss and the accuracy on the current model state, update both meters with
the batch size as weight, and (in training mode only) step the optimizer. -/
def epochStep {M ι : Type} (forward : M → ι → List ℚ) (lossFn : M → Batch ι → ℚ)
    (optStep : Option (M → Batch ι → M))
    (s : M × AverageMeter × AverageMeter) (b : Batch ι) :
    M × AverageMeter × AverageMeter :=
  (applyOpt optStep s.1 b,
   s.2.1.update (lossFn s.1 b) b.size,
   s.2.2.update (batchAcc forward s.1 b) b.size)

/-- `run_epoch(model, dataloader, epoch, optimizer=None, scheduler=None)`
(lines 57-90): fresh loss/accuracy meters, one pass over the loader, return
`(loss_meter.avg, acc_meter.avg)`; the final model state is returned as the
first component (the Python code mutates the model in place). -/
def run_epoch {M ι : Type} (forward : M → ι → List ℚ) (lossFn : M → Batch ι → ℚ)
    (optStep : Option (M → Batch ι → M)) (model0 : M) (batches : List (Batch ι)) :
    M × ℚ × ℚ :=
  let r := batches.foldl (epochStep forward lossFn optStep)
    (model0, AverageMeter.mk0 "loss", AverageMeter.mk0 "acc")
  (r.1, r.2.1.avg, r.2.2.avg)

/-- Loss numerator of the batch-size-weighted mean: sum over the batches,
in loader order, of (cross-entropy loss at the model state current when the
batch is processed) × (batch size). -/
def epochLossSum {M ι : Type} (lossFn : M → Batch ι → ℚ)
    (optStep : Option (M → Batch ι → M)) : M → List (Batch ι) → ℚ
  | _, [] => 0
  | m, b :: rest => lossFn m b * b.size + epochLossSum lossFn optStep (applyOpt optStep m b) rest

/-- Accuracy numerator of the batch-size-weighted mean, analogously. -/
def epochAccSum {M ι : Type} (forward : M → ι → List ℚ)
    (optStep : Option (M → Batch ι → M)) : M → List (Batch ι) → ℚ
  | _, [] => 0
  | m, b :: rest =>
    batchAcc forward m b * b.size + epochAccSum forward optStep (applyOpt optStep m b) rest

/-- Total number of samples seen in one epoch: the sum of the batch sizes. -/
def totalSamples {ι : Type} (batches : List (Batch ι)) : ℕ :=
  (batches.map Batch.size).sum

/-! ### The finetune orchestrator (lines 112-189)

`EarlyStopping` comes from `pytorchtools` and is consumed as a black box:
it is abstracted as an arbitrary state type `ε` with a step function
(`early_stopping(test_loss, model)`) and a stop flag (`early_stop`).  The
per-epoch training and evaluation results are abstracted as a sequence of
`EpochOutcome`s; `torch.save(model, ...)` is modelled by recording the
saved state in `checkpoint` and counting the save events in `saves`. -/

/-- Results of one epoch of the loop body (lines 166-167): the two
`run_epoch` calls and the model state reached after them. -/
structure EpochOutcome (σ : Type) where
  train_loss : ℚ
  train_acc : ℚ
  test_loss : ℚ
  test_acc : ℚ
  modelState : σ
  deriving DecidableEq

/-- Orchestrator state across epochs: the running `optimal_loss` and
`optimal_acc` (line 162), the last checkpoint written by `torch.save`
together with a counter of save events, the early-stopping state, and
whether the loop was left via `break`. -/
structure FTState (σ ε : Type) where
  optimal_loss : ℚ
  optimal_acc : ℚ
  checkpoint : Option σ
  saves : ℕ
  es : ε
  stopped : Bool
  deriving DecidableEq

/-- Initial orchestrator state: `optimal_loss, optimal_acc = 1e5, 0.`
(line 162), nothing saved yet, fresh early-stopping state. -/
def initFTState {σ ε : Type} (es0 : ε) : FTState σ ε :=
  { optimal_loss := 100000, optimal_acc := 0, checkpoint := none,
    saves := 0, es := es0, stopped := false }

/-- One epoch of the fine-tuning loop (lines 165-183): if the training loss
strictly improved on `optimal_loss`, record the test accuracy and save the
model; then feed the test loss to the early-stopping policy; if it signals
stop, record the current epoch's results again, save, and leave the loop. -/
def finetuneStep {σ ε : Type} (esStep : ε → ℚ → ε) (esStop : ε → Bool)
    (s : FTState σ ε) (o : EpochOutcome σ) : FTState σ ε :=
  if s.stopped then s
  else
    let s1 := if o.train_loss < s.optimal_loss then
        { s with optimal_loss := o.train_loss, optimal_acc := o.test_acc,
                 checkpoint := some o.modelState, saves := s.saves + 1 }
      else s
    let es1 := esStep s1.es o.test_loss
    if esStop es1 then
      { s1 with es := es1, optimal_loss := o.train_loss, optimal_acc := o.test_acc,
                checkpoint := some o.modelState, saves := s1.saves + 1, stopped := true }
    else { s1 with es := es1 }

/-- The whole fine-tuning loop over the per-epoch outcomes. -/
def finetuneLoop {σ ε : Type} (esStep : ε → ℚ → ε) (esStop : ε → Bool)
    (es0 : ε) (outcomes : List (EpochOutcome σ)) : FTState σ ε :=
  outcomes.foldl (finetuneStep esStep esStop) (initFTState es0)

/-- The configuration keys of the hydra config that the scheduler and the
loop read: note that `epochs` and `finetune_epochs` are two distinct
keys. -/
structure FinetuneArgs where
  epochs : ℕ
  finetune_epochs : ℕ
  deriving DecidableEq

/-- `range(1, args.finetune_epochs + 1)` (line 165): the epoch numbers the
fine-tuning loop iterates over. -/
def epochRange (args : FinetuneArgs) : List ℕ :=
  List.range' 1 args.finetune_epochs

/-- The total-step count passed to the scheduler's `lr_lambda`
(line 158): `args.epochs * len(train_loader)`. -/
def schedulerTotalSteps (args : FinetuneArgs) (numBatches : ℕ) : ℕ :=
  args.epochs * numBatches

/-- The `lr_lambda` the orchestrator installs on the `LambdaLR` scheduler
(lines 154-160): the cosine schedule over `schedulerTotalSteps` steps from
`args.learning_rate` down to `1e-3`. -/
noncomputable def schedLambda (args : FinetuneArgs) (numBatches : ℕ)
    (learning_rate : ℝ) (step : ℝ) : ℝ :=
  get_lr step (schedulerTotalSteps args numBatches) learning_rate 0.001

/-! ### Trainable-parameter selection (lines 134-143)

A PyTorch parameter carries a `requires_grad` flag, `True` on freshly
constructed modules.  Crucially, line 136 `model.enc.requires_grad = False`
assigns a plain Python attribute on the encoder `nn.Module` object; it does
not touch any parameter's `requires_grad` flag.  The attribute is modelled
by `encModuleAttr` (absent before assignment), which `parameters()`
ignores. -/

/-- A model parameter: an identity and its `requires_grad` flag. -/
structure Param where
  pid : ℕ
  requires_grad : Bool
  deriving DecidableEq

/-- The parameters of `LinModel`: the encoder's followed by the linear
head's (registration order `self.enc`, then `self.lin`; lines 44-51). -/
structure LinModelParams where
  encParams : List Param
  linParams : List Param
  encModuleAttr : Option Bool
  deriving DecidableEq

/-- `model.parameters()`: every parameter, in registration order. -/
def parameters (m : LinModelParams) : List Param :=
  m.encParams ++ m.linParams

/-- Lines 135-143: when `args.finetune == True`, assign the (inert) module
attribute and take every parameter with `requires_grad is True`; otherwise
clear `requires_grad` on each encoder parameter first and then filter. -/
def trainableParams (m : LinModelParams) (ft : Bool) : List Param :=
  if ft then
    (parameters { m with encModuleAttr := some false }).filter
      (fun p => p.requires_grad)
  else
    (parameters { m with
        encParams := m.encParams.map (fun p => { p with requires_grad := false }) }).filter
      (fun p => p.requires_grad)

/-! ### Lemmas about the buckets dictionary -/

theorem lookupBucket_eq_none {m : Buckets} {y : Label} :
    lookupBucket m y = none ↔ y ∉ m.map Prod.fst := by
  induction m with
  | nil => simp [lookupBucket]
  | cons kb rest ih =>
    obtain ⟨k, b⟩ := kb
    by_cases h : k = y
    · subst h; simp [lookupBucket]
    · simp [lookupBucket, h, ih, Ne.symm h]

theorem mem_keys_of_lookupBucket {m : Buckets} {y : Label} {b : List ℕ}
    (h : lookupBucket m y = some b) : y ∈ m.map Prod.fst := by
  by_contra hmem
  rw [← lookupBucket_eq_none] at hmem
  rw [h] at hmem
  cases hmem

theorem appendToBucket_of_lookup_none {m : Buckets} {y : Label} (i : ℕ)
    (h : lookupBucket m y = none) : appendToBucket m y i = m ++ [(y, [i])] := by
  induction m with
  | nil => rfl
  | cons kb rest ih =>
    obtain ⟨k, b⟩ := kb
    by_cases hk : k = y
    · subst hk; simp [lookupBucket] at h
    · simp only [lookupBucket, if_neg hk] at h
      simp [appendToBucket, hk, ih h]

theorem appendToBucket_keys_of_mem {y : Label} (i : ℕ) :
    ∀ m : Buckets, y ∈ m.map Prod.fst →
      (appendToBucket m y i).map Prod.fst = m.map Prod.fst := by
  intro m
  induction m with
  | nil => intro h; cases h
  | cons kb rest ih =>
    obtain ⟨k, b⟩ := kb
    intro hmem
    by_cases hk : k = y
    · subst hk; simp [appendToBucket]
    · have : y ∈ rest.map Prod.fst := by
        simp only [List.map_cons, List.mem_cons] at hmem
        exact hmem.resolve_left (fun hh => hk hh.symm)
      simp [appendToBucket, hk, ih this]

/-! ### Lemmas about newLabels -/

theorem newLabels_not_mem_seen {y : Label} :
    ∀ (l seen : List Label), y ∈ newLabels seen l → y ∉ seen := by
  intro l
  induction l with
  | nil => intro seen h; cases h
  | cons z rest ih =>
    intro seen h
    by_cases hz : z ∈ seen
    · rw [newLabels, if_pos hz] at h
      exact ih seen h
    · rw [newLabels, if_neg hz] at h
      rcases List.mem_cons.mp h with h1 | h1
      · subst h1; exact hz
      · intro hseen
        exact ih (seen ++ [z]) h1 (by simp [hseen])

theorem newLabels_subset {y : Label} :
    ∀ (l seen : List Label), y ∈ newLabels seen l → y ∈ l := by
  intro l
  induction l with
  | nil => intro seen h; cases h
  | cons z rest ih =>
    intro seen h
    by_cases hz : z ∈ seen
    · rw [newLabels, if_pos hz] at h
      exact List.mem_cons_of_mem _ (ih seen h)
    · rw [newLabels, if_neg hz] at h
      rcases List.mem_cons.mp h with h1 | h1
      · exact h1 ▸ List.mem_cons_self z rest
      · exact List.mem_cons_of_mem _ (ih _ h1)

theorem newLabels_nodup : ∀ (l seen : List Label), (newLabels seen l).Nodup := by
  intro l
  induction l with
  | nil => intro seen; simp [newLabels]
  | cons z rest ih =>
    intro seen
    by_cases hz : z ∈ seen
    · rw [newLabels, if_pos hz]; exact ih seen
    · rw [newLabels, if_neg hz]
      refine List.nodup_cons.mpr ⟨fun hmem => ?_, ih (seen ++ [z])⟩
      exact newLabels_not_mem_seen rest (seen ++ [z]) hmem (by simp)

/-! ### Lemmas about occFrom and greedy admission -/

theorem occFrom_label {α : Type} {y : Label} :
    ∀ (ds : List (α × Label)) (i j : ℕ), j ∈ occFrom y ds i →
      i ≤ j ∧ labelOf ds (j - i) = some y := by
  intro ds
  induction ds with
  | nil => intro i j h; cases h
  | cons hd rest ih =>
    obtain ⟨x, y'⟩ := hd
    intro i j h
    rw [occFrom] at h
    by_cases hy : y' = y
    · rw [if_pos hy] at h
      rcases List.mem_cons.mp h with h1 | h1
      · subst h1
        refine ⟨le_rfl, ?_⟩
        simp [labelOf, hy]
      · obtain ⟨h2, h3⟩ := ih (i + 1) j h1
        refine ⟨by omega, ?_⟩
        have hj : j - i = (j - (i + 1)) + 1 := by omega
        rw [hj]
        simpa [labelOf] using h3
    · rw [if_neg hy] at h
      obtain ⟨h2, h3⟩ := ih (i + 1) j h
      refine ⟨by omega, ?_⟩
      have hj : j - i = (j - (i + 1)) + 1 := by omega
      rw [hj]
      simpa [labelOf] using h3

theorem occFrom_ge {α : Type} {y : Label} {ds : List (α × Label)} {i j : ℕ}
    (h : j ∈ occFrom y ds i) : i ≤ j :=
  (occFrom_label ds i j h).1

theorem occFrom_nodup {α : Type} {y : Label} :
    ∀ (ds : List (α × Label)) (i : ℕ), (occFrom y ds i).Nodup := by
  intro ds
  induction ds with
  | nil => intro i; simp [occFrom]
  | cons hd rest ih =>
    obtain ⟨x, y'⟩ := hd
    intro i
    rw [occFrom]
    by_cases hy : y' = y
    · rw [if_pos hy]
      refine List.nodup_cons.mpr ⟨fun hmem => ?_, ih (i + 1)⟩
      have := occFrom_ge hmem
      omega
    · rw [if_neg hy]; exact ih (i + 1)

theorem occFrom_eq_nil_iff {α : Type} {y : Label} :
    ∀ (ds : List (α × Label)) (i : ℕ), occFrom y ds i = [] ↔ y ∉ ds.map Prod.snd := by
  intro ds
  induction ds with
  | nil => intro i; simp [occFrom]
  | cons hd rest ih =>
    obtain ⟨x, y'⟩ := hd
    intro i
    rw [occFrom]
    by_cases hy : y' = y
    · rw [if_pos hy]; simp [hy]
    · rw [if_neg hy, ih (i + 1)]
      simp only [List.map_cons, List.mem_cons]
      constructor
      · intro h hmem
        rcases hmem with h1 | h1
        · exact hy h1.symm
        · exact h h1
      · intro h hmem
        exact h (Or.inr hmem)

theorem admitRest_sublist (cap : ℚ) :
    ∀ (os : List ℕ) (len : ℕ), (admitRest cap len os).Sublist os := by
  intro os
  induction os with
  | nil => intro len; simp [admitRest]
  | cons i rest ih =>
    intro len
    rw [admitRest]
    split
    · exact (ih (len + 1)).cons₂ i
    · exact (ih len).cons i

theorem greedyAdmit_sublist (cap : ℚ) (os : List ℕ) : (greedyAdmit cap os).Sublist os := by
  cases os with
  | nil => simp [greedyAdmit]
  | cons i rest => exact (admitRest_sublist cap rest 1).cons₂ i

theorem admitRest_length (cap : ℚ) :
    ∀ (os : List ℕ) (len : ℕ),
      len + (admitRest cap len os).length ≤ max len ⌈cap⌉.toNat := by
  intro os
  induction os with
  | nil =>
    intro len
    simp only [admitRest, List.length_nil, Nat.add_zero]
    exact Nat.le_max_left _ _
  | cons i rest ih =>
    intro len
    rw [admitRest]
    by_cases h : (len : ℚ) < cap
    · rw [if_pos h]
      have hlen : len < ⌈cap⌉.toNat := by
        rw [Int.lt_toNat]
        exact Int.lt_ceil.mpr (by exact_mod_cast h)
      have h2 := ih (len + 1)
      rw [Nat.max_eq_right hlen] at h2
      have h3 : ⌈cap⌉.toNat ≤ max len ⌈cap⌉.toNat := Nat.le_max_right _ _
      simp only [List.length_cons]
      omega
    · rw [if_neg h]
      exact ih len

theorem greedyAdmit_length {cap : ℚ} (hcap : 0 < cap) (os : List ℕ) :
    (greedyAdmit cap os).length ≤ ⌈cap⌉.toNat := by
  cases os with
  | nil => simp [greedyAdmit]
  | cons i rest =>
    have hN : 1 ≤ ⌈cap⌉.toNat := by
      have h1 : (0 : ℤ) < ⌈cap⌉ := Int.ceil_pos.mpr hcap
      omega
    have h := admitRest_length cap rest 1
    rw [Nat.max_eq_right hN] at h
    simp only [greedyAdmit, List.length_cons]
    omega

/-! ### Closed form of the get_subset loop -/

theorem map_extend_appendToBucket {α : Type} (cap : ℚ) (a : α) (y : Label)
    (rest : List (α × Label)) (i : ℕ) :
    ∀ (m : Buckets) (b : List ℕ), lookupBucket m y = some b →
      (m.map Prod.fst).Nodup →
      (if (b.length : ℚ) < cap then appendToBucket m y i else m).map
          (extendEntry cap rest (i + 1))
        = m.map (extendEntry cap ((a, y) :: rest) i) := by
  intro m
  induction m with
  | nil => intro b hb; cases hb
  | cons kb tl ih =>
    obtain ⟨k, c⟩ := kb
    intro b hb hnodup
    by_cases hk : k = y
    · subst hk
      rw [lookupBucket, if_pos rfl] at hb
      have hcb : c = b := by injection hb
      subst hcb
      have hy : (k : Label) ∉ tl.map Prod.fst := by
        simp only [List.map_cons] at hnodup
        exact (List.nodup_cons.mp hnodup).1
      have htl : tl.map (extendEntry cap rest (i + 1))
          = tl.map (extendEntry cap ((a, k) :: rest) i) := by
        apply List.map_congr_left
        intro kb' hkb'
        have hk' : kb'.1 ≠ k := fun h =>
          hy (h ▸ List.mem_map_of_mem Prod.fst hkb')
        unfold extendEntry
        rw [occFrom, if_neg (fun h => hk' h.symm)]
      by_cases hlt : (c.length : ℚ) < cap
      · rw [if_pos hlt, appendToBucket, if_pos rfl]
        simp only [List.map_cons]
        rw [htl]
        congr 1
        unfold extendEntry
        rw [occFrom, if_pos rfl]
        simp only [List.length_append, List.length_cons, List.length_nil]
        rw [admitRest, if_pos (by exact_mod_cast hlt)]
        simp [List.append_assoc]
      · rw [if_neg hlt]
        simp only [List.map_cons]
        rw [htl]
        congr 1
        unfold extendEntry
        rw [occFrom, if_pos rfl]
        rw [admitRest, if_neg (by exact_mod_cast hlt)]
    · rw [lookupBucket, if_neg hk] at hb
      have hnd : (tl.map Prod.fst).Nodup := by
        simp only [List.map_cons] at hnodup
        exact (List.nodup_cons.mp hnodup).2
      have hcomm : (if (b.length : ℚ) < cap then appendToBucket ((k, c) :: tl) y i
            else (k, c) :: tl)
          = (k, c) :: (if (b.length : ℚ) < cap then appendToBucket tl y i else tl) := by
        by_cases hlt : (b.length : ℚ) < cap
        · rw [if_pos hlt, if_pos hlt, appendToBucket, if_neg hk]
        · rw [if_neg hlt, if_neg hlt]
      rw [hcomm]
      simp only [List.map_cons]
      rw [ih b hb hnd]
      congr 1
      unfold extendEntry
      rw [occFrom, if_neg (fun h => hk h.symm)]

theorem subsetLoop_closed {α : Type} (cap : ℚ) :
    ∀ (ds : List (α × Label)) (m : Buckets) (i : ℕ), (m.map Prod.fst).Nodup →
      subsetLoop cap m ds i =
        m.map (extendEntry cap ds i)
        ++ (newLabels (m.map Prod.fst) (ds.map Prod.snd)).map
            (fun y => (y, greedyAdmit cap (occFrom y ds i))) := by
  intro ds
  induction ds with
  | nil =>
    intro m i hm
    have h1 : m.map (extendEntry cap ([] : List (α × Label)) i) = m := by
      have hpt : ∀ kb ∈ m, extendEntry cap ([] : List (α × Label)) i kb = id kb := by
        intro kb _
        unfold extendEntry
        simp [occFrom, admitRest]
      rw [List.map_congr_left hpt, List.map_id]
    simp [subsetLoop, newLabels, h1]
  | cons hd tl ih =>
    obtain ⟨a, y⟩ := hd
    intro m i hm
    rw [subsetLoop, subsetStep]
    cases hlk : lookupBucket m y with
    | none =>
      have hni : y ∉ m.map Prod.fst := lookupBucket_eq_none.mp hlk
      rw [appendToBucket_of_lookup_none i hlk]
      have hnd' : ((m ++ [(y, [i])]).map Prod.fst).Nodup := by
        simp [List.nodup_append, hm, hni]
      rw [ih (m ++ [(y, [i])]) (i + 1) hnd']
      have hkeys : (m ++ [(y, [i])]).map Prod.fst = m.map Prod.fst ++ [y] := by simp
      rw [hkeys, List.map_append]
      have hnew : newLabels (m.map Prod.fst) (((a, y) :: tl).map Prod.snd)
          = y :: newLabels (m.map Prod.fst ++ [y]) (tl.map Prod.snd) := by
        simp only [List.map_cons]
        rw [newLabels, if_neg hni]
      rw [hnew, List.map_cons]
      have hm1 : m.map (extendEntry cap tl (i + 1))
          = m.map (extendEntry cap ((a, y) :: tl) i) := by
        apply List.map_congr_left
        intro kb' hkb'
        have hk' : kb'.1 ≠ y := fun h =>
          hni (h ▸ List.mem_map_of_mem Prod.fst hkb')
        unfold extendEntry
        rw [occFrom, if_neg (fun h => hk' h.symm)]
      have hhead : extendEntry cap tl (i + 1) (y, [i])
          = (y, greedyAdmit cap (occFrom y ((a, y) :: tl) i)) := by
        unfold extendEntry
        rw [occFrom, if_pos rfl]
        simp [greedyAdmit]
      have htail : (newLabels (m.map Prod.fst ++ [y]) (tl.map Prod.snd)).map
            (fun y' => (y', greedyAdmit cap (occFrom y' tl (i + 1))))
          = (newLabels (m.map Prod.fst ++ [y]) (tl.map Prod.snd)).map
            (fun y' => (y', greedyAdmit cap (occFrom y' ((a, y) :: tl) i))) := by
        apply List.map_congr_left
        intro y' hy'
        have hk' : y' ≠ y := fun h =>
          newLabels_not_mem_seen _ _ hy' (h ▸ (by simp : y ∈ m.map Prod.fst ++ [y]))
        rw [occFrom, if_neg (fun h => hk' h.symm)]
      rw [hm1, htail]
      simp [hhead]
    | some b =>
      have hmem : y ∈ m.map Prod.fst := mem_keys_of_lookupBucket hlk
      have hkeys : ((if (b.length : ℚ) < cap then appendToBucket m y i else m).map
          Prod.fst) = m.map Prod.fst := by
        by_cases hlt : (b.length : ℚ) < cap
        · rw [if_pos hlt]; exact appendToBucket_keys_of_mem i m hmem
        · rw [if_neg hlt]
      have hnd' : (((if (b.length : ℚ) < cap then appendToBucket m y i else m).map
          Prod.fst)).Nodup := by rw [hkeys]; exact hm
      rw [ih _ (i + 1) hnd', hkeys]
      have hnew : newLabels (m.map Prod.fst) (((a, y) :: tl).map Prod.snd)
          = newLabels (m.map Prod.fst) (tl.map Prod.snd) := by
        simp only [List.map_cons]
        rw [newLabels, if_pos hmem]
      rw [hnew]
      congr 1
      · exact map_extend_appendToBucket cap a y tl i m b hlk hm
      · apply List.map_congr_left
        intro y' hy'
        have hk' : y' ≠ y := fun h =>
          (newLabels_not_mem_seen _ _ hy') (h ▸ hmem)
        rw [occFrom, if_neg (fun h => hk' h.symm)]

/-- The result of `get_subset`: one greedily-capped bucket per label, in
first-encountered label order, concatenated. -/
theorem get_subset_eq {α : Type} (ds : List (α × Label)) (pct : ℚ) :
    get_subset ds pct =
      ((newLabels [] (ds.map Prod.snd)).map
        (fun y => greedyAdmit (((ds.length : ℚ) * pct) / 10) (occFrom y ds 0))).flatten := by
  unfold get_subset
  rw [subsetLoop_closed _ ds [] 0 (by simp)]
  simp only [List.map_nil, List.nil_append, newLabels, List.map_map]
  congr 1

theorem appendToBucket_flatten_length (y : Label) (i : ℕ) :
    ∀ m : Buckets, (((appendToBucket m y i).map Prod.snd).flatten).length
      = ((m.map Prod.snd).flatten).length + 1 := by
  intro m
  induction m with
  | nil => simp [appendToBucket]
  | cons kb tl ih =>
    obtain ⟨k, b⟩ := kb
    by_cases hk : k = y
    · rw [appendToBucket, if_pos hk]
      simp only [List.map_cons, List.flatten_cons, List.length_append,
        List.length_cons, List.length_nil]
      omega
    · rw [appendToBucket, if_neg hk]
      simp only [List.map_cons, List.flatten_cons, List.length_append, ih]
      omega

theorem subsetStep_flatten_length (cap : ℚ) (y : Label) (i : ℕ) (m : Buckets) :
    (((subsetStep cap m y i).map Prod.snd).flatten).length
      ≤ ((m.map Prod.snd).flatten).length + 1 := by
  cases hlk : lookupBucket m y with
  | none =>
    simp only [subsetStep, hlk]
    exact le_of_eq (appendToBucket_flatten_length y i m)
  | some b =>
    simp only [subsetStep, hlk]
    by_cases hlt : (b.length : ℚ) < cap
    · rw [if_pos hlt]
      exact le_of_eq (appendToBucket_flatten_length y i m)
    · rw [if_neg hlt]
      omega

theorem subsetLoop_flatten_length {α : Type} (cap : ℚ) :
    ∀ (ds : List (α × Label)) (m : Buckets) (i : ℕ),
      (((subsetLoop cap m ds i).map Prod.snd).flatten).length
        ≤ ((m.map Prod.snd).flatten).length + ds.length := by
  intro ds
  induction ds with
  | nil => intro m i; simp [subsetLoop]
  | cons hd tl ih =>
    obtain ⟨a, y⟩ := hd
    intro m i
    rw [subsetLoop]
    have h1 := ih (subsetStep cap m y i) (i + 1)
    have h2 := subsetStep_flatten_length cap y i m
    simp only [List.length_cons]
    omega

/-- Every index admitted into the bucket of label `y` indeed carries label
`y` in the dataset. -/
theorem greedy_occ_label {α : Type} {cap : ℚ} {ds : List (α × Label)} {y : Label}
    {j : ℕ} (h : j ∈ greedyAdmit cap (occFrom y ds 0)) : labelOf ds j = some y := by
  have hj : j ∈ occFrom y ds 0 := (greedyAdmit_sublist cap _).subset h
  have h2 := (occFrom_label ds 0 j hj).2
  simpa using h2

/-- Summing a function over a duplicate-free list when at most the single
entry `y` contributes. -/
theorem sum_single_le (f : Label → ℕ) (y : Label) (N : ℕ) (hy : f y ≤ N) :
    ∀ L : List Label, L.Nodup → (∀ y' ∈ L, y' ≠ y → f y' = 0) →
      (L.map f).sum ≤ N := by
  intro L
  induction L with
  | nil => intro _ _; simp
  | cons z L ih =>
    intro hL hother
    by_cases hzy : z = y
    · subst hzy
      have htail : (L.map f).sum = 0 := by
        apply List.sum_eq_zero
        intro x hx
        rcases List.mem_map.mp hx with ⟨y', hy', rfl⟩
        have hne : y' ≠ z := fun h => (List.nodup_cons.mp hL).1 (h ▸ hy')
        exact hother y' (List.mem_cons_of_mem _ hy') hne
      simp only [List.map_cons, List.sum_cons, htail]
      omega
    · have h0 : f z = 0 := hother z (List.mem_cons_self z L) hzy
      have htail := ih (List.nodup_cons.mp hL).2
        (fun y' h' hne => hother y' (List.mem_cons_of_mem _ h') hne)
      simp only [List.map_cons, List.sum_cons, h0]
      omega

theorem admitRest_eq_nil_of_nonpos {cap : ℚ} (hcap : cap ≤ 0) :
    ∀ (os : List ℕ) (len : ℕ), 1 ≤ len → admitRest cap len os = [] := by
  intro os
  induction os with
  | nil => intro len _; simp [admitRest]
  | cons i rest ih =>
    intro len hlen
    have hnot : ¬((len : ℚ) < cap) := by
      have h1 : (1 : ℚ) ≤ (len : ℚ) := by exact_mod_cast hlen
      linarith
    rw [admitRest, if_neg hnot]
    exact ih len hlen

theorem flatten_singletons {β γ : Type} (f : β → γ) :
    ∀ L : List β, (L.map (fun y => [f y])).flatten = L.map f := by
  intro L
  induction L with
  | nil => rfl
  | cons z L ih => simp [ih]

/-! ### Claim theorems about get_subset -/

/-- C1: for every dataset and every fraction `pct` in `(0, 1]`, the index
sequence returned by `get_subset` contains each dataset index at most once
(it is duplicate-free), for each class label contains at most
`ceil(len(dataset) * pct / 10)` indices of that label, and in total
contains at most `len(dataset)` indices. -/
theorem get_subset_class_balanced {α : Type} (ds : List (α × Label)) (pct : ℚ)
    (h0 : 0 < pct) (_h1 : pct ≤ 1) :
    (get_subset ds pct).Nodup ∧
    (∀ y : Label,
      (((get_subset ds pct).filter (fun i => labelOf ds i == some y)).length : ℤ)
        ≤ ⌈((ds.length : ℚ) * pct) / 10⌉) ∧
    (get_subset ds pct).length ≤ ds.length := by
  refine ⟨?_, ?_, ?_⟩
  · rw [get_subset_eq]
    apply List.nodup_flatten.mpr
    constructor
    · intro l hl
      rcases List.mem_map.mp hl with ⟨y, hy, rfl⟩
      exact List.Nodup.sublist (greedyAdmit_sublist _ _) (occFrom_nodup ds 0)
    · refine List.pairwise_map.mpr (List.Pairwise.imp ?_ (newLabels_nodup _ _))
      intro y y' hne j hj hj'
      have e1 := greedy_occ_label hj
      have e2 := greedy_occ_label hj'
      rw [e1] at e2
      exact hne (Option.some.inj e2)
  · intro y
    by_cases hds : ds = []
    · subst hds
      simp [get_subset, subsetLoop]
    · have hlen : (0 : ℚ) < (ds.length : ℚ) := by
        exact_mod_cast List.length_pos.mpr hds
      have hcap : 0 < ((ds.length : ℚ) * pct) / 10 := by positivity
      have key : (((get_subset ds pct)).filter
            (fun i => labelOf ds i == some y)).length
          ≤ (⌈((ds.length : ℚ) * pct) / 10⌉).toNat := by
        rw [get_subset_eq, List.filter_flatten, List.map_map, List.length_flatten,
          List.map_map]
        refine sum_single_le _ y _ ?_ _ (newLabels_nodup _ _) ?_
        · simp only [Function.comp_apply]
          exact le_trans (List.length_filter_le _ _) (greedyAdmit_length hcap _)
        · intro y' _ hne
          simp only [Function.comp_apply]
          rw [List.length_eq_zero]
          rw [List.filter_eq_nil_iff]
          intro j hj
          have := greedy_occ_label hj
          simp [this, hne]
      have hnn : (0 : ℤ) ≤ ⌈((ds.length : ℚ) * pct) / 10⌉ := Int.ceil_nonneg hcap.le
      calc ((((get_subset ds pct)).filter
            (fun i => labelOf ds i == some y)).length : ℤ)
          ≤ ((⌈((ds.length : ℚ) * pct) / 10⌉).toNat : ℤ) := by exact_mod_cast key
        _ = ⌈((ds.length : ℚ) * pct) / 10⌉ := Int.toNat_of_nonneg hnn
  · unfold get_subset
    have h := subsetLoop_flatten_length (((ds.length : ℚ) * pct) / 10) ds [] 0
    simpa using h

/-- C1 witness: the bounds evaluated on the three-element dataset with
labels `[0, 0, 1]` and `pct = 1/2`. -/
theorem get_subset_class_balanced_witness :
    (get_subset ([(0, 0), (0, 0), (0, 1)] : List (ℕ × Label)) (1 / 2)).Nodup ∧
    (∀ y : Label,
      (((get_subset ([(0, 0), (0, 0), (0, 1)] : List (ℕ × Label)) (1 / 2)).filter
          (fun i => labelOf ([(0, 0), (0, 0), (0, 1)] : List (ℕ × Label)) i == some y)).length : ℤ)
        ≤ ⌈(((([(0, 0), (0, 0), (0, 1)] : List (ℕ × Label)).length : ℚ)) * (1 / 2)) / 10⌉) ∧
    (get_subset ([(0, 0), (0, 0), (0, 1)] : List (ℕ × Label)) (1 / 2)).length
      ≤ ([(0, 0), (0, 0), (0, 1)] : List (ℕ × Label)).length :=
  get_subset_class_balanced _ _ (by norm_num) (by norm_num)

/-- C2: `get_subset` refines the spec-level description: it iterates the
dataset once in order, always admits the first-encountered index of each
label, admits every later index of a label only while the bucket holds
fewer than `(len(dataset) * pct) / 10` entries, and returns the
concatenation of the buckets in the order labels were first
encountered. -/
theorem get_subset_refines_spec {α : Type} (dataset : List (α × Label)) (pct : ℚ) :
    get_subset dataset pct = get_subset_spec dataset pct := by
  rw [get_subset_eq]
  rfl

/-- C10 counterexample: on the empty dataset with `pct = 0 ≤ 0`,
`get_subset` does return an empty sequence, so the claim's "never returns
an empty sequence" fails for the empty dataset. -/
theorem get_subset_nonpos_counterexample :
    (0 : ℚ) ≤ 0 ∧ get_subset ([] : List (Unit × Label)) 0 = [] :=
  ⟨le_refl 0, rfl⟩

/-- C10 (amended): for every NON-EMPTY dataset and every fraction
`pct ≤ 0`, `get_subset` neither fails nor returns an empty sequence: it
returns exactly one index per distinct class label present in the dataset,
namely the first occurrence of each label in dataset order (on the empty
dataset it returns the empty sequence). -/
theorem get_subset_nonpos_first_occurrences {α : Type} (ds : List (α × Label))
    (pct : ℚ) (hpct : pct ≤ 0) (hne : ds ≠ []) :
    get_subset ds pct = (newLabels [] (ds.map Prod.snd)).map (firstOccIdx ds) ∧
    get_subset ds pct ≠ [] := by
  have hcap : ((ds.length : ℚ) * pct) / 10 ≤ 0 := by
    have h1 : (ds.length : ℚ) * pct ≤ 0 :=
      mul_nonpos_iff.mpr (Or.inl ⟨by positivity, hpct⟩)
    exact div_nonpos_of_nonpos_of_nonneg h1 (by norm_num)
  have hEq : get_subset ds pct = (newLabels [] (ds.map Prod.snd)).map (firstOccIdx ds) := by
    rw [get_subset_eq]
    have hbuckets : ∀ y ∈ newLabels [] (ds.map Prod.snd),
        greedyAdmit (((ds.length : ℚ) * pct) / 10) (occFrom y ds 0)
          = [firstOccIdx ds y] := by
      intro y hy
      have hyl : y ∈ ds.map Prod.snd := newLabels_subset _ _ hy
      have hocc : occFrom y ds 0 ≠ [] := fun h =>
        ((occFrom_eq_nil_iff ds 0).mp h) hyl
      obtain ⟨j, os, hjos⟩ := List.exists_cons_of_ne_nil hocc
      rw [hjos, greedyAdmit, admitRest_eq_nil_of_nonpos hcap os 1 le_rfl]
      unfold firstOccIdx
      rw [hjos]
      rfl
    rw [List.map_congr_left hbuckets, flatten_singletons]
  refine ⟨hEq, ?_⟩
  rw [hEq]
  cases ds with
  | nil => exact absurd rfl hne
  | cons p tl =>
    rw [List.map_cons, newLabels, if_neg (List.not_mem_nil _)]
    simp

/-- C10 witness: the amended statement evaluated on a three-element dataset
with labels `[5, 5, 7]` and `pct = -1`: the result is the first occurrence
of each label, `[0, 2]`. -/
theorem get_subset_nonpos_first_occurrences_witness :
    (get_subset ([(0, 5), (0, 5), (0, 7)] : List (ℕ × Label)) (-1)
        = (newLabels [] (([(0, 5), (0, 5), (0, 7)] : List (ℕ × Label)).map Prod.snd)).map
          (firstOccIdx ([(0, 5), (0, 5), (0, 7)] : List (ℕ × Label))) ∧
      get_subset ([(0, 5), (0, 5), (0, 7)] : List (ℕ × Label)) (-1) ≠ []) ∧
    get_subset ([(0, 5), (0, 5), (0, 7)] : List (ℕ × Label)) (-1) = [0, 2] :=
  ⟨get_subset_nonpos_first_occurrences _ _ (by norm_num) (by decide),
    by norm_num [get_subset, subsetLoop, subsetStep, lookupBucket, appendToBucket]⟩

/-! ### Lemmas about run_epoch -/

theorem foldl_epochStep_fst {M ι : Type} (forward : M → ι → List ℚ)
    (lossFn : M → Batch ι → ℚ) (optStep : Option (M → Batch ι → M)) :
    ∀ (bs : List (Batch ι)) (m : M) (sl sa : AverageMeter),
      (bs.foldl (epochStep forward lossFn optStep) (m, sl, sa)).1
        = bs.foldl (applyOpt optStep) m := by
  intro bs
  induction bs with
  | nil => intro m sl sa; rfl
  | cons b bs ih =>
    intro m sl sa
    rw [List.foldl_cons, List.foldl_cons]
    exact ih _ _ _

theorem foldl_applyOpt_none {M ι : Type} :
    ∀ (bs : List (Batch ι)) (m : M), bs.foldl (applyOpt none) m = m := by
  intro bs
  induction bs with
  | nil => intro m; rfl
  | cons b bs ih => intro m; rw [List.foldl_cons]; exact ih m

theorem foldl_epochStep_meters {M ι : Type} (forward : M → ι → List ℚ)
    (lossFn : M → Batch ι → ℚ) (optStep : Option (M → Batch ι → M)) :
    ∀ (bs : List (Batch ι)) (m : M) (sl sa : AverageMeter),
      ((bs.foldl (epochStep forward lossFn optStep) (m, sl, sa)).2.1.sum
          = sl.sum + epochLossSum lossFn optStep m bs) ∧
      ((bs.foldl (epochStep forward lossFn optStep) (m, sl, sa)).2.1.count
          = sl.count + totalSamples bs) ∧
      ((bs.foldl (epochStep forward lossFn optStep) (m, sl, sa)).2.2.sum
          = sa.sum + epochAccSum forward optStep m bs) ∧
      ((bs.foldl (epochStep forward lossFn optStep) (m, sl, sa)).2.2.count
          = sa.count + totalSamples bs) := by
  intro bs
  induction bs with
  | nil =>
    intro m sl sa
    simp [epochLossSum, epochAccSum, totalSamples]
  | cons b bs ih =>
    intro m sl sa
    rw [List.foldl_cons]
    simp only [epochStep]
    obtain ⟨h1, h2, h3, h4⟩ := ih (applyOpt optStep m b)
      (sl.update (lossFn m b) b.size) (sa.update (batchAcc forward m b) b.size)
    refine ⟨?_, ?_, ?_, ?_⟩
    · rw [h1]
      simp only [AverageMeter.update, epochLossSum]
      ring
    · rw [h2]
      simp only [AverageMeter.update, totalSamples, List.map_cons, List.sum_cons]
      omega
    · rw [h3]
      simp only [AverageMeter.update, epochAccSum]
      ring
    · rw [h4]
      simp only [AverageMeter.update, totalSamples, List.map_cons, List.sum_cons]
      omega

theorem foldl_epochStep_avg {M ι : Type} (forward : M → ι → List ℚ)
    (lossFn : M → Batch ι → ℚ) (optStep : Option (M → Batch ι → M)) :
    ∀ (bs : List (Batch ι)), bs ≠ [] → ∀ (s : M × AverageMeter × AverageMeter),
      ((bs.foldl (epochStep forward lossFn optStep) s).2.1.avg
          = (bs.foldl (epochStep forward lossFn optStep) s).2.1.sum
            / ((bs.foldl (epochStep forward lossFn optStep) s).2.1.count : ℚ)) ∧
      ((bs.foldl (epochStep forward lossFn optStep) s).2.2.avg
          = (bs.foldl (epochStep forward lossFn optStep) s).2.2.sum
            / ((bs.foldl (epochStep forward lossFn optStep) s).2.2.count : ℚ)) := by
  intro bs
  induction bs with
  | nil => intro h; exact absurd rfl h
  | cons b bs ih =>
    intro _ s
    rw [List.foldl_cons]
    by_cases hbs : bs = []
    · subst hbs
      constructor <;> simp [epochStep, AverageMeter.update]
    · exact ih hbs _

/-! ### Claim theorems about run_epoch -/

/-- C3: `run_epoch` returns the pair (loss average, accuracy average),
each the batch-size-weighted mean over the batches in loader order: the
sum over batches of (per-batch metric × batch size) divided by the total
number of samples, the per-batch metric being the cross-entropy loss
(abstracted as `lossFn`) respectively the fraction of argmax predictions
equal to the labels, both taken at the model state current when the batch
is processed. -/
theorem run_epoch_weighted_mean {M ι : Type} (forward : M → ι → List ℚ)
    (lossFn : M → Batch ι → ℚ) (optStep : Option (M → Batch ι → M))
    (model0 : M) (batches : List (Batch ι)) :
    (run_epoch forward lossFn optStep model0 batches).2.1
        = epochLossSum lossFn optStep model0 batches / (totalSamples batches : ℚ) ∧
    (run_epoch forward lossFn optStep model0 batches).2.2
        = epochAccSum forward optStep model0 batches / (totalSamples batches : ℚ) := by
  by_cases hbs : batches = []
  · subst hbs
    simp [run_epoch, epochLossSum, epochAccSum, totalSamples,
      AverageMeter.mk0, AverageMeter.reset]
  · obtain ⟨havg1, havg2⟩ := foldl_epochStep_avg forward lossFn optStep batches hbs
      (model0, AverageMeter.mk0 "loss", AverageMeter.mk0 "acc")
    obtain ⟨h1, h2, h3, h4⟩ := foldl_epochStep_meters forward lossFn optStep batches
      model0 (AverageMeter.mk0 "loss") (AverageMeter.mk0 "acc")
    have hm0 : ∀ name : String, (AverageMeter.mk0 name).sum = 0 ∧
        (AverageMeter.mk0 name).count = 0 := fun _ => ⟨rfl, rfl⟩
    constructor
    · show (batches.foldl (epochStep forward lossFn optStep)
        (model0, AverageMeter.mk0 "loss", AverageMeter.mk0 "acc")).2.1.avg = _
      rw [havg1, h1, h2, (hm0 "loss").1, (hm0 "loss").2, zero_add, Nat.zero_add]
    · show (batches.foldl (epochStep forward lossFn optStep)
        (model0, AverageMeter.mk0 "loss", AverageMeter.mk0 "acc")).2.2.avg = _
      rw [havg2, h3, h4, (hm0 "acc").1, (hm0 "acc").2, zero_add, Nat.zero_add]

/-- C9: in evaluation mode (no optimizer), `run_epoch` performs no
parameter mutation — the model it ends with is the model it started
with — and a second identical call on that model yields the identical
(loss average, accuracy average) result. -/
theorem run_epoch_eval_pure {M ι : Type} (forward : M → ι → List ℚ)
    (lossFn : M → Batch ι → ℚ) (model0 : M) (batches : List (Batch ι)) :
    (run_epoch forward lossFn none model0 batches).1 = model0 ∧
    run_epoch forward lossFn none
        ((run_epoch forward lossFn none model0 batches).1) batches
      = run_epoch forward lossFn none model0 batches := by
  have h1 : (run_epoch forward lossFn none model0 batches).1 = model0 := by
    simp only [run_epoch]
    rw [foldl_epochStep_fst, foldl_applyOpt_none]
  exact ⟨h1, by rw [h1]⟩

/-! ### Lemmas and claim theorem for AverageMeter -/

theorem applyUpdates_sum_count :
    ∀ (us : List (ℚ × ℕ)) (s : AverageMeter),
      (applyUpdates s us).sum = s.sum + (us.map (fun u => u.1 * (u.2 : ℚ))).sum ∧
      (applyUpdates s us).count = s.count + (us.map Prod.snd).sum := by
  intro us
  induction us with
  | nil => intro s; simp [applyUpdates]
  | cons u us ih =>
    intro s
    have e : applyUpdates s (u :: us) = applyUpdates (s.update u.1 u.2) us := rfl
    obtain ⟨h1, h2⟩ := ih (s.update u.1 u.2)
    constructor
    · rw [e, h1]
      simp only [AverageMeter.update, List.map_cons, List.sum_cons]
      ring
    · rw [e, h2]
      simp only [AverageMeter.update, List.map_cons, List.sum_cons]
      omega

theorem applyUpdates_val :
    ∀ (us : List (ℚ × ℕ)) (hne : us ≠ []) (s : AverageMeter),
      (applyUpdates s us).val = (us.getLast hne).1 := by
  intro us
  induction us with
  | nil => intro h; exact absurd rfl h
  | cons u us ih =>
    intro hne s
    by_cases hus : us = []
    · subst hus
      simp [applyUpdates, AverageMeter.update, List.getLast]
    · have e : applyUpdates s (u :: us) = applyUpdates (s.update u.1 u.2) us := rfl
      rw [e, ih hus]
      rw [List.getLast_cons hus]

theorem applyUpdates_avg :
    ∀ (us : List (ℚ × ℕ)), us ≠ [] → ∀ s : AverageMeter,
      (applyUpdates s us).avg
        = (applyUpdates s us).sum / ((applyUpdates s us).count : ℚ) := by
  intro us
  induction us with
  | nil => intro h; exact absurd rfl h
  | cons u us ih =>
    intro _ s
    have e : applyUpdates s (u :: us) = applyUpdates (s.update u.1 u.2) us := rfl
    rw [e]
    by_cases hus : us = []
    · subst hus
      simp [applyUpdates, AverageMeter.update]
    · exact ih hus _

/-- C8: after `reset()` followed by any finite non-empty sequence of
`update(v, n)` calls with every `n ≥ 1`, the meter satisfies
`sum = Σ v·n`, `count = Σ n ≥ 1`, `val` = the last `v`, and
`avg = (Σ v·n) / (Σ n)`. -/
theorem averageMeter_weighted_average (m0 : AverageMeter) (us : List (ℚ × ℕ))
    (hne : us ≠ []) (hw : ∀ u ∈ us, 1 ≤ u.2) :
    (applyUpdates m0.reset us).sum = (us.map (fun u => u.1 * (u.2 : ℚ))).sum ∧
    (applyUpdates m0.reset us).count = (us.map Prod.snd).sum ∧
    1 ≤ (applyUpdates m0.reset us).count ∧
    (applyUpdates m0.reset us).val = (us.getLast hne).1 ∧
    (applyUpdates m0.reset us).avg
      = (us.map (fun u => u.1 * (u.2 : ℚ))).sum / (((us.map Prod.snd).sum : ℕ) : ℚ) := by
  obtain ⟨h1, h2⟩ := applyUpdates_sum_count us m0.reset
  have hr1 : m0.reset.sum = 0 := rfl
  have hr2 : m0.reset.count = 0 := rfl
  refine ⟨?_, ?_, ?_, ?_, ?_⟩
  · rw [h1, hr1, zero_add]
  · rw [h2, hr2, Nat.zero_add]
  · rw [h2, hr2, Nat.zero_add]
    cases us with
    | nil => exact absurd rfl hne
    | cons u us =>
      have hu := hw u (List.mem_cons_self u us)
      simp only [List.map_cons, List.sum_cons]
      omega
  · exact applyUpdates_val us hne m0.reset
  · rw [applyUpdates_avg us hne, h1, h2, hr1, hr2, zero_add, Nat.zero_add]

/-- C8 witness: two updates `(3, 2)` then `(5, 1)` on a fresh meter give
average `11/3`. -/
theorem averageMeter_weighted_average_witness :
    (applyUpdates (AverageMeter.mk0 "m").reset [((3 : ℚ), 2), (5, 1)]).avg
        = (([((3 : ℚ), 2), (5, 1)].map (fun u => u.1 * (u.2 : ℚ))).sum
          / ((([((3 : ℚ), 2), (5, 1)].map Prod.snd).sum : ℕ) : ℚ)) ∧
    (applyUpdates (AverageMeter.mk0 "m").reset [((3 : ℚ), 2), (5, 1)]).avg = 11 / 3 :=
  ⟨(averageMeter_weighted_average (AverageMeter.mk0 "m") [((3 : ℚ), 2), (5, 1)]
      (List.cons_ne_nil _ _) (by norm_num)).2.2.2.2,
    by norm_num [applyUpdates, AverageMeter.update, AverageMeter.mk0, AverageMeter.reset]⟩

/-! ### Claim theorem for get_lr -/

/-- C4: for every `T > 0`, `get_lr 0 T lr_max lr_min = lr_max`,
`get_lr T T lr_max lr_min = lr_min`, and when `lr_max ≥ lr_min` the
schedule is monotonically non-increasing in the step over `[0, T]`. -/
theorem get_lr_schedule (T lr_max lr_min : ℝ) (hT : 0 < T) :
    get_lr 0 T lr_max lr_min = lr_max ∧
    get_lr T T lr_max lr_min = lr_min ∧
    (lr_min ≤ lr_max → ∀ s1 s2 : ℝ, 0 ≤ s1 → s1 ≤ s2 → s2 ≤ T →
      get_lr s2 T lr_max lr_min ≤ get_lr s1 T lr_max lr_min) := by
  refine ⟨?_, ?_, ?_⟩
  · unfold get_lr
    rw [zero_div, zero_mul, Real.cos_zero]
    ring
  · unfold get_lr
    rw [div_self (ne_of_gt hT), one_mul, Real.cos_pi]
    ring
  · intro hab s1 s2 hs1 hs12 hs2T
    unfold get_lr
    have hpi : (0 : ℝ) ≤ Real.pi := Real.pi_nonneg
    have hx1 : 0 ≤ s1 / T * Real.pi := by positivity
    have hx12 : s1 / T * Real.pi ≤ s2 / T * Real.pi := by gcongr
    have hx2 : s2 / T * Real.pi ≤ Real.pi := by
      have h2 : s2 / T ≤ 1 := (div_le_one hT).mpr hs2T
      calc s2 / T * Real.pi ≤ 1 * Real.pi :=
            mul_le_mul_of_nonneg_right h2 hpi
        _ = Real.pi := one_mul _
    have hcos : Real.cos (s2 / T * Real.pi) ≤ Real.cos (s1 / T * Real.pi) :=
      Real.cos_le_cos_of_nonneg_of_le_pi hx1 hx2 hx12
    have hfac : (0 : ℝ) ≤ (lr_max - lr_min) * 0.5 := by linarith
    have hmul := mul_le_mul_of_nonneg_left
      (by linarith : 1 + Real.cos (s2 / T * Real.pi)
        ≤ 1 + Real.cos (s1 / T * Real.pi)) hfac
    linarith

/-- C4 witness: the schedule evaluated with `T = 1`, `lr_max = 1`,
`lr_min = 0`. -/
theorem get_lr_schedule_witness :
    get_lr 0 1 1 0 = 1 ∧ get_lr 1 1 1 0 = 0 ∧ get_lr 1 1 1 0 ≤ get_lr 0 1 1 0 := by
  obtain ⟨h1, h2, h3⟩ := get_lr_schedule 1 1 0 one_pos
  exact ⟨h1, h2, h3 zero_le_one 0 1 le_rfl zero_le_one le_rfl⟩

/-! ### Claim theorems for the orchestrator -/

/-- C5: in a running (not yet stopped) epoch, whenever the epoch's training
loss is strictly lower than the best (`optimal_loss`) seen so far, the
orchestrator records the current epoch's test accuracy as the optimal
result and persists the current model state as the best checkpoint; and
when the training loss did not improve (and early stopping does not fire),
the optimal bookkeeping and the checkpoint are left untouched — the
selection is keyed on training-loss improvement only, never on test loss
or test accuracy. -/
theorem finetuneStep_best_keyed_on_train_loss {σ ε : Type}
    (esStep : ε → ℚ → ε) (esStop : ε → Bool) (s : FTState σ ε) (o : EpochOutcome σ)
    (hrun : s.stopped = false) :
    (o.train_loss < s.optimal_loss →
      (finetuneStep esStep esStop s o).optimal_loss = o.train_loss ∧
      (finetuneStep esStep esStop s o).optimal_acc = o.test_acc ∧
      (finetuneStep esStep esStop s o).checkpoint = some o.modelState ∧
      s.saves < (finetuneStep esStep esStop s o).saves) ∧
    (¬ o.train_loss < s.optimal_loss →
      esStop (esStep s.es o.test_loss) = false →
      finetuneStep esStep esStop s o = { s with es := esStep s.es o.test_loss }) := by
  constructor
  · intro himp
    by_cases hstop2 : esStop (esStep s.es o.test_loss) = true
    · simp [finetuneStep, hrun, himp, hstop2]
      omega
    · simp only [Bool.not_eq_true] at hstop2
      simp [finetuneStep, hrun, himp, hstop2]
  · intro himp hstop2
    simp [finetuneStep, hrun, himp, hstop2]

/-- C5 witness: from the initial state (best loss `1e5`), an epoch with
training loss `1` and test accuracy `7` records accuracy `7` and saves the
checkpoint. -/
theorem finetuneStep_best_keyed_on_train_loss_witness :
    (finetuneStep (fun (u : Unit) (_ : ℚ) => u) (fun _ => false)
        (@initFTState Unit Unit Unit.unit)
        (⟨1, 0, 2, 7, Unit.unit⟩ : EpochOutcome Unit)).optimal_acc = 7 ∧
    (finetuneStep (fun (u : Unit) (_ : ℚ) => u) (fun _ => false)
        (@initFTState Unit Unit Unit.unit)
        (⟨1, 0, 2, 7, Unit.unit⟩ : EpochOutcome Unit)).checkpoint = some Unit.unit := by
  have h := (finetuneStep_best_keyed_on_train_loss (fun (u : Unit) (_ : ℚ) => u)
    (fun _ => false) (@initFTState Unit Unit Unit.unit)
    (⟨1, 0, 2, 7, Unit.unit⟩ : EpochOutcome Unit) rfl).1
    (by norm_num [initFTState])
  exact ⟨h.2.1, h.2.2.1⟩

/-- C6 counterexample: the scheduler's total-step parameter is
`args.epochs * numBatches` (line 158), while the fine-tuning loop runs
`args.finetune_epochs` epochs (line 165); with `epochs = 3`,
`finetune_epochs = 5` and 2 batches per epoch the claimed equality
`total steps = loop epochs × batches-per-epoch` fails: `6 ≠ 10`. -/
theorem schedulerTotalSteps_counterexample :
    schedulerTotalSteps { epochs := 3, finetune_epochs := 5 } 2
      ≠ (epochRange { epochs := 3, finetune_epochs := 5 }).length * 2 := by
  decide

/-- C6 (amended): the per-step cosine schedule is parameterized by total
optimizer steps equal to the `epochs` configuration key times the number
of batches per training epoch; the fine-tuning loop instead runs
`finetune_epochs` epochs, a distinct configuration key, and the claimed
equality with (loop epochs × batches-per-epoch) holds exactly when the
two keys coincide. -/
theorem schedulerTotalSteps_uses_epochs_key (args : FinetuneArgs) (n : ℕ)
    (hn : 0 < n) :
    schedulerTotalSteps args n = args.epochs * n ∧
    (epochRange args).length = args.finetune_epochs ∧
    (schedulerTotalSteps args n = (epochRange args).length * n ↔
      args.epochs = args.finetune_epochs) := by
  have hlen : (epochRange args).length = args.finetune_epochs := by
    simp [epochRange]
  refine ⟨rfl, hlen, ?_⟩
  rw [hlen]
  unfold schedulerTotalSteps
  constructor
  · exact fun h => Nat.eq_of_mul_eq_mul_right hn h
  · intro h; rw [h]

/-- C6 witness: with `epochs = finetune_epochs = 2` and 3 batches per
epoch, the amended statement holds and the two sides agree. -/
theorem schedulerTotalSteps_uses_epochs_key_witness :
    schedulerTotalSteps { epochs := 2, finetune_epochs := 2 } 3
        = ({ epochs := 2, finetune_epochs := 2 } : FinetuneArgs).epochs * 3 ∧
    (epochRange { epochs := 2, finetune_epochs := 2 }).length
        = ({ epochs := 2, finetune_epochs := 2 } : FinetuneArgs).finetune_epochs ∧
    (schedulerTotalSteps { epochs := 2, finetune_epochs := 2 } 3
        = (epochRange { epochs := 2, finetune_epochs := 2 }).length * 3 ↔
      ({ epochs := 2, finetune_epochs := 2 } : FinetuneArgs).epochs
        = ({ epochs := 2, finetune_epochs := 2 } : FinetuneArgs).finetune_epochs) :=
  schedulerTotalSteps_uses_epochs_key { epochs := 2, finetune_epochs := 2 } 3
    (by decide)

/-- C7: the optimizer's trainable-parameter set is controlled by the single
boolean flag `finetune`: with the flag set, the assignment
`model.enc.requires_grad = False` only creates an inert module attribute,
so the selection contains the head's parameters plus all encoder
parameters; with the flag clear, every encoder parameter's
`requires_grad` is cleared first, so the selection contains only the
head's parameters. -/
theorem trainableParams_modes (m : LinModelParams)
    (henc : ∀ p ∈ m.encParams, p.requires_grad = true)
    (hlin : ∀ p ∈ m.linParams, p.requires_grad = true) :
    trainableParams m true = m.encParams ++ m.linParams ∧
    trainableParams m false = m.linParams := by
  constructor
  · show (parameters { m with encModuleAttr := some false }).filter
      (fun p => p.requires_grad) = m.encParams ++ m.linParams
    apply List.filter_eq_self.mpr
    intro p hp
    rcases List.mem_append.mp hp with h | h
    · exact henc p h
    · exact hlin p h
  · show (parameters { m with
        encParams := m.encParams.map (fun p => { p with requires_grad := false }) }).filter
      (fun p => p.requires_grad) = m.linParams
    unfold parameters
    rw [List.filter_append]
    have h1 : (m.encParams.map (fun p => { p with requires_grad := false })).filter
        (fun p => p.requires_grad) = [] := by
      apply List.filter_eq_nil_iff.mpr
      intro p hp
      rcases List.mem_map.mp hp with ⟨q, _, rfl⟩
      simp
    have h2 : m.linParams.filter (fun p => p.requires_grad) = m.linParams :=
      List.filter_eq_self.mpr (fun p hp => hlin p hp)
    rw [h1, h2, List.nil_append]

/-- C7 witness: one fresh encoder parameter and one fresh head parameter;
mode `true` selects both, mode `false` selects only the head's. -/
theorem trainableParams_modes_witness :
    trainableParams ⟨[⟨0, true⟩], [⟨1, true⟩], none⟩ true
      = [⟨0, true⟩] ++ [⟨1, true⟩] ∧
    trainableParams ⟨[⟨0, true⟩], [⟨1, true⟩], none⟩ false = [⟨1, true⟩] :=
  trainableParams_modes ⟨[⟨0, true⟩], [⟨1, true⟩], none⟩ (by decide) (by decide)

end SimclrLin
